import Mathlib

/-!
Verification of the Alpha Stream template algorithm and of the pipeline
contracts of the engine it configures.

The first part embeds the code of
`src/Algorithm.Python/AlphaStreamTemplateAlgorithm.py`: the coarse universe
filter `SelectCoarse`, the skeleton alpha model `AlphaModelTemplate`
(`Update` and `OnSecuritiesChanged`).  Python's `sorted(..., reverse=True)`
is a stable sort by the key in descending order; it is embedded as
`List.insertionSort` with the relation `dvGe` (which is stable in the same
sense).  Python's `list.remove` deletes the first occurrence, embedded as
`List.erase`.

The second part models, from the specification, the engine components that
the repository only configures (Security Registry, Insight Store,
equal-weighting Portfolio Construction, Orchestration Engine failure
escalation); each such definition carries a `Modelled from the spec` note.
-/

/-- A record of the coarse fundamental snapshot handed to universe
selection: symbol id, has-fundamental-data flag, price and dollar volume
(prices and volumes as exact rationals). -/
structure CoarseFundamental where
  Symbol : ℕ
  HasFundamentalData : Bool
  Price : ℚ
  DollarVolume : ℚ
deriving DecidableEq

/-- The descending dollar-volume ordering used by the `sorted` call in
`SelectCoarse` (`a` comes before `b` iff `a`'s dollar volume is at least
`b`'s). -/
def dvGe (a b : CoarseFundamental) : Prop :=
  b.DollarVolume ≤ a.DollarVolume

instance : DecidableRel dvGe := fun a b =>
  inferInstanceAs (Decidable (b.DollarVolume ≤ a.DollarVolume))

instance : IsTotal CoarseFundamental dvGe :=
  ⟨fun a b => le_total b.DollarVolume a.DollarVolume⟩

instance : IsTrans CoarseFundamental dvGe :=
  ⟨fun _ _ _ hab hbc => le_trans hbc hab⟩

/-- `SelectCoarse` from the source: keep records with fundamental data and
price above 5, sort by dollar volume descending (stably), return the first
50 symbols. -/
def SelectCoarse (coarse : List CoarseFundamental) : List ℕ :=
  let filtered := coarse.filter fun cf => cf.HasFundamentalData && decide (cf.Price > 5)
  let sortedByDollarVolume := List.insertionSort dvGe filtered
  (sortedByDollarVolume.map fun cf => cf.Symbol).take 50

/-- C1: `SelectCoarse` returns at most 50 symbols, and its output is exactly
the symbols of the records having fundamental data and price above 5,
arranged in some dollar-volume-descending order and truncated to the first
(hence highest-dollar-volume) 50. -/
theorem selectCoarse_filters_sorts_truncates (coarse : List CoarseFundamental) :
    (SelectCoarse coarse).length ≤ 50 ∧
    ∃ l : List CoarseFundamental,
      (coarse.filter fun cf => cf.HasFundamentalData && decide (cf.Price > 5)).Perm l ∧
      l.Sorted dvGe ∧
      SelectCoarse coarse = (l.map fun cf => cf.Symbol).take 50 := by
  refine ⟨?_, List.insertionSort dvGe _, (List.perm_insertionSort dvGe _).symm,
    List.sorted_insertionSort dvGe _, rfl⟩
  simp [SelectCoarse]

/-- A coarse snapshot of 51 records, all passing the filter and all with the
same dollar volume, with symbols `0, …, 50`. -/
def snapA : List CoarseFundamental :=
  (List.range 51).map fun i => ⟨i, true, 6, 1⟩

/-- The same records in the opposite order. -/
def snapB : List CoarseFundamental := snapA.reverse

/-- Two lists that are permutations of each other and sorted with respect to
a relation that is antisymmetric on the members of the first one are equal. -/
theorem eq_of_perm_of_sorted_of_anti {α : Type*} {r : α → α → Prop} :
    ∀ {l₁ l₂ : List α}, l₁.Perm l₂ → l₁.Pairwise r → l₂.Pairwise r →
      (∀ x ∈ l₁, ∀ y ∈ l₁, r x y → r y x → x = y) → l₁ = l₂
  | [], l₂, hp, _, _, _ => hp.nil_eq
  | x :: t₁, [], hp, _, _, _ => absurd hp.symm (by simp)
  | x :: t₁, y :: t₂, hp, hs₁, hs₂, hanti => by
    have hxy : x = y := by
      rcases List.mem_cons.mp (hp.mem_iff.mp (List.mem_cons_self x t₁)) with h | hxt₂
      · exact h
      rcases List.mem_cons.mp (hp.symm.mem_iff.mp (List.mem_cons_self y t₂)) with h | hyt₁
      · exact h.symm
      exact hanti x (List.mem_cons_self x t₁) y (List.mem_cons_of_mem x hyt₁)
        ((List.pairwise_cons.mp hs₁).1 y hyt₁) ((List.pairwise_cons.mp hs₂).1 x hxt₂)
    subst hxy
    have ht : t₁ = t₂ :=
      eq_of_perm_of_sorted_of_anti hp.cons_inv (List.pairwise_cons.mp hs₁).2
        (List.pairwise_cons.mp hs₂).2
        (fun a ha b hb => hanti a (List.mem_cons_of_mem x ha) b (List.mem_cons_of_mem x hb))
    rw [ht]

/-- C2 counterexample: two coarse snapshots that contain the same records as
a set (one is the reverse of the other) for which `SelectCoarse` returns
different symbol sets, because 51 records tie in dollar volume at the
50-element cutoff. -/
theorem selectCoarse_order_dependent :
    snapA.toFinset = snapB.toFinset ∧
    (SelectCoarse snapA).toFinset ≠ (SelectCoarse snapB).toFinset := by
  decide

/-- C2 amended: for two coarse snapshots that contain the same records
(possibly in different orders), if the records' dollar volumes are pairwise
distinct then `SelectCoarse` returns the same list (hence the same set) of
symbols. -/
theorem selectCoarse_perm_distinct_dv (a b : List CoarseFundamental)
    (hab : a.Perm b)
    (hdv : a.Pairwise fun x y => x.DollarVolume ≠ y.DollarVolume) :
    SelectCoarse a = SelectCoarse b := by
  have hpf := hab.filter fun cf => cf.HasFundamentalData && decide (cf.Price > 5)
  have hperm :
      (List.insertionSort dvGe
        (a.filter fun cf => cf.HasFundamentalData && decide (cf.Price > 5))).Perm
      (List.insertionSort dvGe
        (b.filter fun cf => cf.HasFundamentalData && decide (cf.Price > 5))) :=
    (List.perm_insertionSort dvGe _).trans (hpf.trans (List.perm_insertionSort dvGe _).symm)
  have hanti : ∀ x ∈ List.insertionSort dvGe
      (a.filter fun cf => cf.HasFundamentalData && decide (cf.Price > 5)),
      ∀ y ∈ List.insertionSort dvGe
      (a.filter fun cf => cf.HasFundamentalData && decide (cf.Price > 5)),
      dvGe x y → dvGe y x → x = y := by
    intro x hx y hy hxy hyx
    by_cases heq : x = y
    · exact heq
    · have hxa : x ∈ a := List.mem_of_mem_filter (List.mem_insertionSort dvGe |>.mp hx)
      have hya : y ∈ a := List.mem_of_mem_filter (List.mem_insertionSort dvGe |>.mp hy)
      have hne : x.DollarVolume ≠ y.DollarVolume :=
        hdv.forall (fun _ _ h => h.symm) hxa hya heq
      exact absurd (le_antisymm hyx hxy) hne
  have key := eq_of_perm_of_sorted_of_anti hperm
    (List.sorted_insertionSort dvGe _) (List.sorted_insertionSort dvGe _) hanti
  simp only [SelectCoarse]
  rw [key]

/-- C2 amended, witnessed at a concrete input: the two-element snapshots
`[⟨0, true, 6, 2⟩, ⟨1, true, 6, 1⟩]` and its reverse. -/
theorem selectCoarse_perm_distinct_dv_witness :
    (([⟨0, true, 6, 2⟩, ⟨1, true, 6, 1⟩] : List CoarseFundamental)).Perm
      [⟨1, true, 6, 1⟩, ⟨0, true, 6, 2⟩] ∧
    ([⟨0, true, 6, 2⟩, ⟨1, true, 6, 1⟩] : List CoarseFundamental).Pairwise
      (fun x y => x.DollarVolume ≠ y.DollarVolume) ∧
    SelectCoarse [⟨0, true, 6, 2⟩, ⟨1, true, 6, 1⟩] =
      SelectCoarse [⟨1, true, 6, 1⟩, ⟨0, true, 6, 2⟩] :=
  ⟨by decide, by decide,
    selectCoarse_perm_distinct_dv _ _ (by decide) (by decide)⟩

/-- The added/removed notification delivered to `OnSecuritiesChanged`
(securities are identified by their symbol id). -/
structure SecurityChanges where
  AddedSecurities : List ℕ
  RemovedSecurities : List ℕ
deriving DecidableEq

/-- The first loop of `OnSecuritiesChanged`: for each removed security, if it
is in the list, delete its first occurrence (`list.remove`). -/
def removeLoop (secs : List ℕ) (rem : List ℕ) : List ℕ :=
  rem.foldl (fun acc r => if r ∈ acc then acc.erase r else acc) secs

/-- The second loop of `OnSecuritiesChanged`: for each added security, append
it if it is not already in the list. -/
def addLoop (secs : List ℕ) (adds : List ℕ) : List ℕ :=
  adds.foldl (fun acc a => if a ∈ acc then acc else acc ++ [a]) secs

/-- `AlphaModelTemplate.OnSecuritiesChanged` from the source: update
`self.securities` by first processing `changes.RemovedSecurities` and then
`changes.AddedSecurities`. -/
def OnSecuritiesChanged (securities : List ℕ) (changes : SecurityChanges) : List ℕ :=
  addLoop (removeLoop securities changes.RemovedSecurities) changes.AddedSecurities

theorem removeLoop_cons (s : List ℕ) (r : ℕ) (t : List ℕ) :
    removeLoop s (r :: t) = removeLoop (s.erase r) t := by
  by_cases h : r ∈ s
  · simp [removeLoop, h]
  · simp [removeLoop, h, List.erase_of_not_mem h]

theorem mem_removeLoop {s : List ℕ} (hs : s.Nodup) {rem : List ℕ} {x : ℕ} :
    x ∈ removeLoop s rem ↔ x ∈ s ∧ x ∉ rem := by
  induction rem generalizing s with
  | nil => simp [removeLoop]
  | cons r t ih =>
    rw [removeLoop_cons, ih (hs.erase r), hs.mem_erase_iff]
    simp only [List.mem_cons]
    tauto

theorem nodup_removeLoop {s : List ℕ} (hs : s.Nodup) (rem : List ℕ) :
    (removeLoop s rem).Nodup := by
  induction rem generalizing s with
  | nil => exact hs
  | cons r t ih => rw [removeLoop_cons]; exact ih (hs.erase r)

theorem removeLoop_eq_self {s rem : List ℕ} (h : ∀ r ∈ rem, r ∉ s) :
    removeLoop s rem = s := by
  induction rem with
  | nil => rfl
  | cons r t ih =>
    rw [removeLoop_cons, List.erase_of_not_mem (h r (List.mem_cons_self r t))]
    exact ih fun x hx => h x (List.mem_cons_of_mem r hx)

theorem addLoop_cons (s : List ℕ) (a : ℕ) (t : List ℕ) :
    addLoop s (a :: t) = addLoop (if a ∈ s then s else s ++ [a]) t := rfl

theorem mem_addLoop {s adds : List ℕ} {x : ℕ} :
    x ∈ addLoop s adds ↔ x ∈ s ∨ x ∈ adds := by
  induction adds generalizing s with
  | nil => simp [addLoop]
  | cons a t ih =>
    rw [addLoop_cons]
    by_cases h : a ∈ s
    · rw [if_pos h, ih]
      simp only [List.mem_cons]
      constructor
      · tauto
      · rintro (hx | rfl | hx) <;> tauto
    · rw [if_neg h, ih]
      simp only [List.mem_append, List.mem_singleton, List.mem_cons]
      tauto

theorem nodup_addLoop {s : List ℕ} (hs : s.Nodup) (adds : List ℕ) :
    (addLoop s adds).Nodup := by
  induction adds generalizing s with
  | nil => exact hs
  | cons a t ih =>
    rw [addLoop_cons]
    by_cases h : a ∈ s
    · rw [if_pos h]; exact ih hs
    · rw [if_neg h]
      exact ih (by simp [List.nodup_append, h, hs])

theorem addLoop_eq_self {s adds : List ℕ} (h : ∀ a ∈ adds, a ∈ s) :
    addLoop s adds = s := by
  induction adds with
  | nil => rfl
  | cons a t ih =>
    rw [addLoop_cons, if_pos (h a (List.mem_cons_self a t))]
    exact ih fun x hx => h x (List.mem_cons_of_mem a hx)

/-- C3 counterexample: starting from the empty securities list, the changes
with `AddedSecurities = [0, 1]` and `RemovedSecurities = [0]` yield `[0, 1]`
after one call but `[1, 0]` after two calls, so `OnSecuritiesChanged` is not
idempotent as stated. -/
theorem onSecuritiesChanged_not_idempotent :
    OnSecuritiesChanged (OnSecuritiesChanged [] ⟨[0, 1], [0]⟩) ⟨[0, 1], [0]⟩ ≠
      OnSecuritiesChanged [] ⟨[0, 1], [0]⟩ := by
  decide

/-- C3 amended: provided the securities list has no duplicates and no
security appears in both `AddedSecurities` and `RemovedSecurities`, calling
`OnSecuritiesChanged` twice in a row with the same changes leaves the list in
the same state as calling it once. -/
theorem onSecuritiesChanged_idempotent_of_nodup_disjoint
    (s : List ℕ) (ch : SecurityChanges) (hs : s.Nodup)
    (hdisj : ∀ x ∈ ch.AddedSecurities, x ∉ ch.RemovedSecurities) :
    OnSecuritiesChanged (OnSecuritiesChanged s ch) ch = OnSecuritiesChanged s ch := by
  have h1 : ∀ r ∈ ch.RemovedSecurities, r ∉ OnSecuritiesChanged s ch := by
    intro r hr hmem
    rw [OnSecuritiesChanged, mem_addLoop] at hmem
    rcases hmem with h | h
    · exact ((mem_removeLoop hs).mp h).2 hr
    · exact hdisj r h hr
  have h2 : ∀ a ∈ ch.AddedSecurities, a ∈ OnSecuritiesChanged s ch := by
    intro a ha
    rw [OnSecuritiesChanged, mem_addLoop]
    exact Or.inr ha
  calc OnSecuritiesChanged (OnSecuritiesChanged s ch) ch
      = addLoop (removeLoop (OnSecuritiesChanged s ch) ch.RemovedSecurities)
          ch.AddedSecurities := rfl
    _ = addLoop (OnSecuritiesChanged s ch) ch.AddedSecurities := by
        rw [removeLoop_eq_self h1]
    _ = OnSecuritiesChanged s ch := addLoop_eq_self h2

/-- C3 amended, witnessed at a concrete input: securities `[0]`, changes
adding `1` and removing `0`. -/
theorem onSecuritiesChanged_idempotent_witness :
    ([0] : List ℕ).Nodup ∧
    (∀ x ∈ (SecurityChanges.mk [1] [0]).AddedSecurities,
      x ∉ (SecurityChanges.mk [1] [0]).RemovedSecurities) ∧
    OnSecuritiesChanged (OnSecuritiesChanged [0] ⟨[1], [0]⟩) ⟨[1], [0]⟩ =
      OnSecuritiesChanged [0] ⟨[1], [0]⟩ :=
  ⟨by decide, by decide,
    onSecuritiesChanged_idempotent_of_nodup_disjoint [0] ⟨[1], [0]⟩ (by decide) (by decide)⟩

/-- C10: starting from a duplicate-free securities list (such as the empty
list created in `__init__`), `OnSecuritiesChanged` keeps the list
duplicate-free, and afterwards every added security is a member of the
list. -/
theorem securities_nodup_and_added_mem (s : List ℕ) (ch : SecurityChanges)
    (hs : s.Nodup) :
    (OnSecuritiesChanged s ch).Nodup ∧
    ∀ a ∈ ch.AddedSecurities, a ∈ OnSecuritiesChanged s ch :=
  ⟨nodup_addLoop (nodup_removeLoop hs _) _,
    fun _ ha => mem_addLoop.mpr (Or.inr ha)⟩

/-- C10, witnessed at a concrete input: securities `[5]`, changes adding `7`
and removing `5`. -/
theorem securities_nodup_and_added_mem_witness :
    ([5] : List ℕ).Nodup ∧
    ((OnSecuritiesChanged [5] ⟨[7], [5]⟩).Nodup ∧
      ∀ a ∈ (SecurityChanges.mk [7] [5]).AddedSecurities,
        a ∈ OnSecuritiesChanged [5] ⟨[7], [5]⟩) :=
  ⟨by decide, securities_nodup_and_added_mem [5] ⟨[7], [5]⟩ (by decide)⟩

/-- An insight, restricted to the fields the verified properties mention:
the security's symbol, the producing stage's id, the generation time and the
period; `expiry = generatedAt + period` (times as ticks). -/
structure Insight where
  symbol : ℕ
  source : ℕ
  generatedAt : ℕ
  period : ℕ
deriving DecidableEq

/-- The expiry of an insight, per the data model. -/
def Insight.expiry (i : Insight) : ℕ := i.generatedAt + i.period

/-- `AlphaModelTemplate.Update` from the source: the template emits no
insights whatever the algorithm instance and the data slice are. -/
def AlphaModelTemplate.Update {α β : Type*} (algorithm : α) (data : β) : List Insight := []

/-- C4: the insight sequence returned by `AlphaModelTemplate.Update` contains
no insight for a non-tradable symbol: whatever predicate marks symbols as
tradable, filtering the returned insights for non-tradable symbols leaves
nothing (the template returns no insights at all). -/
theorem alphaTemplate_update_no_nontradable {α β : Type*} (algorithm : α) (data : β)
    (tradable : ℕ → Bool) :
    (AlphaModelTemplate.Update algorithm data).filter (fun i => !(tradable i.symbol)) = [] :=
  rfl

/-- Modelled from the spec: `submit` of the Insight Store, which is not in
`src/`. It admits the insight; an already-stored insight with the same
(symbol, source-stage-id) pair is superseded, i.e. immediately expired, which
the model renders as removal from the store of active insights. -/
def submit (store : List Insight) (i : Insight) : List Insight :=
  (store.filter fun j => !(j.symbol == i.symbol && j.source == i.source)) ++ [i]

/-- The ascending generated-at ordering used by `activeFor`. -/
def genLe (a b : Insight) : Prop := a.generatedAt ≤ b.generatedAt

instance : DecidableRel genLe := fun a b =>
  inferInstanceAs (Decidable (a.generatedAt ≤ b.generatedAt))

/-- Modelled from the spec: `activeFor` of the Insight Store, which is not in
`src/`. It returns the stored insights for the symbol whose expiry is after
`now`, ordered by generated-at ascending (stable, so ties keep insertion
order). -/
def activeFor (store : List Insight) (symbol now : ℕ) : List Insight :=
  List.insertionSort genLe
    (store.filter fun i => i.symbol == symbol && decide (now < i.expiry))

/-- Modelled from the spec: the stored active insights for one
(symbol, source-stage-id) pair. -/
def activePair (store : List Insight) (symbol source : ℕ) : List Insight :=
  store.filter fun j => j.symbol == symbol && j.source == source

/-- C6: an insight with period `P` submitted at time `t` and not superseded
is in `activeFor` of its symbol exactly at the instants `t'` with
`t' < t + P`; in particular it is included for every `t ≤ t' < t + P` and
excluded for every `t' ≥ t + P`. -/
theorem insightStore_active_window (s : List Insight) (i : Insight) (t' : ℕ) :
    i ∈ activeFor (submit s i) i.symbol t' ↔ t' < i.generatedAt + i.period := by
  rw [activeFor, List.mem_insertionSort, List.mem_filter]
  constructor
  · intro h
    simpa [Insight.expiry] using h.2
  · intro h
    refine ⟨List.mem_append_right _ (List.mem_singleton.mpr rfl), ?_⟩
    simp [Insight.expiry, h]

/-- C7: after submitting two insights with the same (symbol, source) pair,
the store holds exactly one insight for that pair, namely the
later-submitted one; and every single `submit` preserves the invariant that
at most one stored insight exists per (symbol, source) pair. -/
theorem insightStore_supersession (s : List Insight) (i₁ i₂ : Insight)
    (hsym : i₁.symbol = i₂.symbol) (hsrc : i₁.source = i₂.source)
    (sym src : ℕ) (hcount : (activePair s sym src).length ≤ 1) :
    activePair (submit (submit s i₁) i₂) i₂.symbol i₂.source = [i₂] ∧
    (activePair (submit s i₁) sym src).length ≤ 1 := by
  constructor
  · rw [activePair, submit, List.filter_append, List.filter_filter]
    have hnil : (List.filter
        (fun j => (j.symbol == i₂.symbol && j.source == i₂.source) &&
          !(j.symbol == i₂.symbol && j.source == i₂.source)) (submit s i₁)) = [] := by
      refine List.filter_eq_nil_iff.mpr fun j _ => ?_
      simp
    rw [hnil]
    simp
  · rw [activePair, submit, List.filter_append]
    by_cases h : (i₁.symbol == sym && i₁.source == src) = true
    · have h1 : i₁.symbol = sym := by
        have := (Bool.and_eq_true _ _).mp h
        exact beq_iff_eq.mp this.1
      have h2 : i₁.source = src := by
        have := (Bool.and_eq_true _ _).mp h
        exact beq_iff_eq.mp this.2
      subst h1; subst h2
      rw [List.filter_filter]
      have hnil : (List.filter
          (fun j => (j.symbol == i₁.symbol && j.source == i₁.source) &&
            !(j.symbol == i₁.symbol && j.source == i₁.source)) s) = [] := by
        refine List.filter_eq_nil_iff.mpr fun j _ => ?_
        simp
      rw [hnil]
      simp
    · have hone : (List.filter (fun j => j.symbol == sym && j.source == src) [i₁]) = [] := by
        simp only [List.filter, Bool.not_eq_true] at h ⊢
        rw [h]
      rw [hone, List.append_nil]
      refine le_trans (List.Sublist.length_le ?_) hcount
      exact List.Sublist.filter _ (List.filter_sublist s)

/-- C7, witnessed at a concrete input: two insights for symbol 0 from stage 0
submitted into the empty store. -/
theorem insightStore_supersession_witness :
    (Insight.mk 0 0 0 1).symbol = (Insight.mk 0 0 1 1).symbol ∧
    (Insight.mk 0 0 0 1).source = (Insight.mk 0 0 1 1).source ∧
    (activePair [] 0 0).length ≤ 1 ∧
    (activePair (submit (submit [] ⟨0, 0, 0, 1⟩) ⟨0, 0, 1, 1⟩)
        (Insight.mk 0 0 1 1).symbol (Insight.mk 0 0 1 1).source = [⟨0, 0, 1, 1⟩] ∧
      (activePair (submit [] ⟨0, 0, 0, 1⟩) 0 0).length ≤ 1) :=
  ⟨rfl, rfl, by decide,
    insightStore_supersession [] ⟨0, 0, 0, 1⟩ ⟨0, 0, 1, 1⟩ rfl rfl 0 0 (by decide)⟩

/-- Modelled from the spec: the `SecurityChanges` value emitted by the
Security Registry, which is not in `src/` — the added/removed diff of two
symbol sets. -/
structure SecurityChangesSet where
  added : Finset ℕ
  removed : Finset ℕ
deriving DecidableEq

/-- Modelled from the spec: the Security Registry's hash-based diff of the
newly selected symbol set against the previously tracked one. -/
def diffChanges (old new : Finset ℕ) : SecurityChangesSet :=
  ⟨new \ old, old \ new⟩

/-- Modelled from the spec: the Security Registry processing a sequence of
universe snapshots, emitting for each snapshot the tracked set before it, the
`SecurityChanges` diff, and the tracked set after it. -/
def registryRun : Finset ℕ → List (Finset ℕ) →
    List (Finset ℕ × SecurityChangesSet × Finset ℕ)
  | _, [] => []
  | old, snap :: rest => (old, diffChanges old snap, snap) :: registryRun snap rest

/-- C5: along any sequence of universe snapshots, every `SecurityChanges`
diff emitted by the Security Registry has disjoint added and removed sets,
and the new tracked set is the old one minus the removed set plus the added
set. -/
theorem registry_changes_disjoint_and_reconstruct
    (init : Finset ℕ) (snaps : List (Finset ℕ))
    (entry : Finset ℕ × SecurityChangesSet × Finset ℕ)
    (hentry : entry ∈ registryRun init snaps) :
    entry.2.1.added ∩ entry.2.1.removed = ∅ ∧
    entry.2.2 = (entry.1 \ entry.2.1.removed) ∪ entry.2.1.added := by
  induction snaps generalizing init with
  | nil => cases hentry
  | cons snap rest ih =>
    rw [registryRun, List.mem_cons] at hentry
    rcases hentry with rfl | h
    · constructor
      · ext x
        simp only [diffChanges, Finset.mem_inter, Finset.mem_sdiff, Finset.not_mem_empty,
          iff_false, not_and]
        tauto
      · ext x
        simp only [diffChanges, Finset.mem_union, Finset.mem_sdiff]
        tauto
    · exact ih snap h

/-- C5, witnessed at a concrete input: the registry tracking `{1}` and
receiving the snapshot `{2}`. -/
theorem registry_changes_witness :
    (({1}, diffChanges {1} {2}, {2}) ∈ registryRun {1} [({2} : Finset ℕ)]) ∧
    ((diffChanges {1} {2}).added ∩ (diffChanges {1} {2}).removed = ∅ ∧
      ({2} : Finset ℕ) = (({1} : Finset ℕ) \ (diffChanges {1} {2}).removed) ∪
        (diffChanges {1} {2}).added) :=
  ⟨List.mem_singleton.mpr rfl,
    registry_changes_disjoint_and_reconstruct {1} [{2}] ({1}, diffChanges {1} {2}, {2})
      (List.mem_singleton.mpr rfl)⟩

/-- The direction of an insight. -/
inductive InsightDirection
  | Up
  | Down
  | Flat
deriving DecidableEq

/-- The equal-weight magnitude's sign for one direction: `1/n` for `Up`,
`-(1/n)` for `Down`, `0` for `Flat`. -/
def weightFor (n : ℚ) (d : InsightDirection) : ℚ :=
  match d with
  | InsightDirection.Up => 1 / n
  | InsightDirection.Down => -(1 / n)
  | InsightDirection.Flat => 0

/-- The number of symbols whose (most recent active) insight is non-Flat. -/
def activeCount (insights : List (ℕ × InsightDirection)) : ℕ :=
  (insights.filter fun p => decide (p.2 ≠ InsightDirection.Flat)).length

/-- Modelled from the spec: the `EqualWeightingPortfolioConstructionModel`
configured by `Initialize`, which is not in `src/`. Input is the most recent
active insight direction per symbol (one entry per symbol) plus the universe;
symbols with a non-Flat insight get absolute weight `1/N` signed by the
direction, symbols with no insight get an explicit 0 target. -/
def constructTargets (insights : List (ℕ × InsightDirection)) (univ : List ℕ) :
    List (ℕ × ℚ) :=
  (insights.map fun p => (p.1, weightFor (activeCount insights) p.2)) ++
    ((univ.filter fun s => !(insights.any fun p => p.1 == s)).map fun s => (s, (0 : ℚ)))

theorem abs_weightFor (n : ℕ) (d : InsightDirection) :
    |weightFor (n : ℚ) d| = if d = InsightDirection.Flat then 0 else 1 / (n : ℚ) := by
  have hnn : (0 : ℚ) ≤ 1 / (n : ℚ) := div_nonneg zero_le_one (Nat.cast_nonneg n)
  cases d
  · simpa [weightFor] using abs_of_nonneg hnn
  · simpa [weightFor] using abs_of_nonneg hnn
  · simp [weightFor]

theorem sum_abs_weightFor (n : ℕ) (ins : List (ℕ × InsightDirection)) :
    ((ins.map fun p => |weightFor (n : ℚ) p.2|).sum) =
      ((ins.filter fun p => decide (p.2 ≠ InsightDirection.Flat)).length : ℚ) / (n : ℚ) := by
  induction ins with
  | nil => simp
  | cons p t ih =>
    rw [List.map_cons, List.sum_cons, ih, abs_weightFor]
    by_cases hp : p.2 = InsightDirection.Flat
    · rw [if_pos hp, List.filter_cons_of_neg (by simp [hp])]
      rw [zero_add]
    · rw [if_neg hp, List.filter_cons_of_pos (by simp [hp]), List.length_cons]
      push_cast
      rw [add_div, add_comm, one_div]

/-- C8: under the equal-weighting reference policy, the sum of the absolute
target weights (the non-Flat symbols each contribute `1/N` and the others
contribute 0) is 1 when at least one symbol has a non-Flat active insight and
0 otherwise, and at most one target is emitted per symbol. -/
theorem equalWeighting_abs_sum (ins : List (ℕ × InsightDirection)) (univ : List ℕ)
    (hins : (ins.map Prod.fst).Nodup) (hu : univ.Nodup) :
    (((constructTargets ins univ).map fun t => |t.2|).sum =
      if ins.any (fun p => decide (p.2 ≠ InsightDirection.Flat)) then 1 else 0) ∧
    ((constructTargets ins univ).map Prod.fst).Nodup := by
  constructor
  · rw [constructTargets, List.map_append, List.sum_append]
    have hzero : ((((univ.filter fun s => !(ins.any fun p => p.1 == s)).map
        fun s => (s, (0 : ℚ))).map fun t => |t.2|).sum) = 0 := by
      refine List.sum_eq_zero fun x hx => ?_
      rw [List.map_map] at hx
      rcases List.mem_map.mp hx with ⟨s, -, rfl⟩
      simp [Function.comp]
    rw [hzero, add_zero, List.map_map]
    have hcomp : ((fun t : ℕ × ℚ => |t.2|) ∘ fun p : ℕ × InsightDirection =>
        (p.1, weightFor (activeCount ins) p.2)) =
        fun p : ℕ × InsightDirection => |weightFor (activeCount ins) p.2| := rfl
    rw [hcomp, sum_abs_weightFor (activeCount ins) ins]
    by_cases hnil : (ins.filter fun p => decide (p.2 ≠ InsightDirection.Flat)) = []
    · have hany : ins.any (fun p => decide (p.2 ≠ InsightDirection.Flat)) = false := by
        rw [List.any_eq_false]
        intro p hp
        simpa using List.filter_eq_nil_iff.mp hnil p hp
      rw [hany, activeCount, hnil]
      simp
    · have hne : (activeCount ins : ℚ) ≠ 0 := by
        rw [activeCount]
        exact_mod_cast fun h =>
          hnil (List.length_eq_zero.mp (by exact_mod_cast h))
      have hany : ins.any (fun p => decide (p.2 ≠ InsightDirection.Flat)) = true := by
        rcases List.exists_mem_of_ne_nil _ hnil with ⟨p, hp⟩
        exact List.any_eq_true.mpr ⟨p, (List.mem_filter.mp hp).1, (List.mem_filter.mp hp).2⟩
      rw [hany, activeCount, if_pos rfl]
      exact div_self (by rwa [activeCount] at hne)
  · rw [constructTargets, List.map_append, List.map_map, List.map_map]
    have h1 : ((Prod.fst ∘ fun p : ℕ × InsightDirection =>
        (p.1, weightFor (activeCount ins) p.2)) : ℕ × InsightDirection → ℕ) = Prod.fst := rfl
    have h2 : ((Prod.fst ∘ fun s : ℕ => (s, (0 : ℚ))) : ℕ → ℕ) = id := rfl
    rw [h1, h2, List.map_id]
    refine List.nodup_append.mpr ⟨hins, hu.filter _, ?_⟩
    intro a ha hafilter
    have hpred := List.of_mem_filter hafilter
    rcases List.mem_map.mp ha with ⟨p, hp, rfl⟩
    have : ins.any (fun q => q.1 == p.1) = true :=
      List.any_eq_true.mpr ⟨p, hp, beq_self_eq_true _⟩
    rw [this] at hpred
    cases hpred

/-- C8, witnessed at a concrete input: one `Up` and one `Down` insight plus a
universe symbol with no insight. -/
theorem equalWeighting_abs_sum_witness :
    (([(0, InsightDirection.Up), (1, InsightDirection.Down)].map Prod.fst).Nodup) ∧
    (([2] : List ℕ).Nodup) ∧
    (((constructTargets [(0, InsightDirection.Up), (1, InsightDirection.Down)] [2]).map
        fun t => |t.2|).sum =
      if ([(0, InsightDirection.Up), (1, InsightDirection.Down)].any
        fun p => decide (p.2 ≠ InsightDirection.Flat)) then 1 else 0) ∧
    ((constructTargets [(0, InsightDirection.Up), (1, InsightDirection.Down)] [2]).map
        Prod.fst).Nodup :=
  ⟨by decide, by decide,
    (equalWeighting_abs_sum [(0, InsightDirection.Up), (1, InsightDirection.Down)] [2]
      (by decide) (by decide)).1,
    (equalWeighting_abs_sum [(0, InsightDirection.Up), (1, InsightDirection.Down)] [2]
      (by decide) (by decide)).2⟩

/-- Modelled from the spec: the per-stage consecutive-failure counters of the
Orchestration Engine (which is not in `src/`) after one tick. A tick is the
vector saying which of the five pipeline stages raised an error on it; a
failing stage's counter increments, a succeeding stage's counter resets. -/
def stepCounts (counts : List ℕ) (fails : List Bool) : List ℕ :=
  List.zipWith (fun c f => if f then c + 1 else 0) counts fails

/-- Modelled from the spec: the escalation condition — some stage has just
completed three consecutive failures. -/
def fatal (counts : List ℕ) : Bool := counts.any fun c => decide (3 ≤ c)

/-- Modelled from the spec: the Orchestration Engine's loop over a list of
ticks. A failing stage's output for the tick is treated as empty and the tick
still completes (which is why a tick is summarised by its failure vector
alone); the function returns how many ticks were processed, halting fatally
right after a tick on which some stage reaches three consecutive failures. -/
def runEngine : List ℕ → List (List Bool) → ℕ
  | _, [] => 0
  | counts, t :: rest =>
    if fatal (stepCounts counts t) then 1 else 1 + runEngine (stepCounts counts t) rest

/-- The failure counters after folding a list of ticks. -/
def countsAfter (counts : List ℕ) (ticks : List (List Bool)) : List ℕ :=
  ticks.foldl stepCounts counts

/-- Whether stage `i` fails on tick `k`. -/
def failsAt (ticks : List (List Bool)) (k i : ℕ) : Bool :=
  (ticks.getD k []).getD i false

/-- Whether some stage fails on three consecutive ticks of the run. -/
def hasTripleFailure (ticks : List (List Bool)) : Bool :=
  (List.range ticks.length).any fun k =>
    decide (k + 2 < ticks.length) && ((List.range 5).any fun i =>
      failsAt ticks k i && failsAt ticks (k + 1) i && failsAt ticks (k + 2) i)

theorem runEngine_cons (counts : List ℕ) (t : List Bool) (rest : List (List Bool)) :
    runEngine counts (t :: rest) =
      if fatal (stepCounts counts t) then 1 else 1 + runEngine (stepCounts counts t) rest :=
  rfl

theorem countsAfter_cons (counts : List ℕ) (t : List Bool) (ticks : List (List Bool)) :
    countsAfter counts (t :: ticks) = countsAfter (stepCounts counts t) ticks := rfl

theorem countsAfter_append (counts : List ℕ) (p q : List (List Bool)) :
    countsAfter counts (p ++ q) = countsAfter (countsAfter counts p) q :=
  List.foldl_append ..

theorem stepCounts_length (counts : List ℕ) (t : List Bool) :
    (stepCounts counts t).length = min counts.length t.length :=
  List.length_zipWith ..

theorem countsAfter_length_five :
    ∀ (ticks : List (List Bool)) (counts : List ℕ), counts.length = 5 →
      (∀ t ∈ ticks, t.length = 5) → (countsAfter counts ticks).length = 5
  | [], _, hc, _ => hc
  | t :: rest, counts, hc, hwf => by
    rw [countsAfter_cons]
    exact countsAfter_length_five rest _
      (by rw [stepCounts_length, hc, hwf t (List.mem_cons_self t rest)]; exact min_self 5)
      (fun u hu => hwf u (List.mem_cons_of_mem t hu))

theorem stepCounts_getD (counts : List ℕ) (t : List Bool) (i : ℕ)
    (hic : i < counts.length) (hit : i < t.length) :
    (stepCounts counts t).getD i 0 = if t.getD i false then counts.getD i 0 + 1 else 0 := by
  have hlen : i < (stepCounts counts t).length := by
    rw [stepCounts_length]; omega
  rw [List.getD_eq_getElem _ _ hlen, List.getD_eq_getElem _ _ hic,
    List.getD_eq_getElem _ _ hit]
  exact List.getElem_zipWith ..

theorem fatal_of_getD (counts : List ℕ) (i : ℕ) (hi : i < counts.length)
    (h3 : 3 ≤ counts.getD i 0) : fatal counts = true := by
  rw [List.getD_eq_getElem _ _ hi] at h3
  exact List.any_eq_true.mpr ⟨counts[i], List.getElem_mem hi, decide_eq_true h3⟩

theorem getD_of_fatal (counts : List ℕ) (h : fatal counts = true) :
    ∃ i, i < counts.length ∧ 3 ≤ counts.getD i 0 := by
  rcases List.any_eq_true.mp h with ⟨c, hc, h3⟩
  rcases List.mem_iff_getElem.mp hc with ⟨i, hi, rfl⟩
  exact ⟨i, hi, by rw [List.getD_eq_getElem _ _ hi]; exact of_decide_eq_true h3⟩

theorem countsAfter_take_succ (counts : List ℕ) (ticks : List (List Bool)) (n : ℕ)
    (hn : n < ticks.length) :
    countsAfter counts (ticks.take (n + 1)) =
      stepCounts (countsAfter counts (ticks.take n)) (ticks.getD n []) := by
  rw [List.take_succ, List.getElem?_eq_getElem hn]
  simp only [Option.toList_some]
  rw [countsAfter_append, List.getD_eq_getElem _ _ hn]
  rfl

theorem runEngine_complete :
    ∀ (ticks : List (List Bool)) (counts : List ℕ),
      (∀ p q, ticks = p ++ q → p ≠ [] → fatal (countsAfter counts p) = false) →
      runEngine counts ticks = ticks.length
  | [], _, _ => rfl
  | t :: rest, counts, h => by
    have hf : fatal (stepCounts counts t) = false := h [t] rest rfl (by simp)
    have hrec : runEngine (stepCounts counts t) rest = rest.length :=
      runEngine_complete rest (stepCounts counts t)
        (fun p q hpq hp => h (t :: p) q (by rw [hpq]; rfl) (by simp))
    rw [runEngine_cons, if_neg (by simp [hf]), hrec, List.length_cons, Nat.add_comm]

theorem runEngine_halted :
    ∀ (ticks : List (List Bool)) (counts : List ℕ) (p q : List (List Bool)),
      ticks = p ++ q → p ≠ [] → fatal (countsAfter counts p) = true →
      ∀ extra, runEngine counts (ticks ++ extra) = runEngine counts ticks
  | [], _, p, q, hpq, hp, _, _ => by
    rcases List.append_eq_nil.mp hpq.symm with ⟨h1, -⟩
    exact absurd h1 hp
  | t :: rest, counts, p, q, hpq, hp, hfatal, extra => by
    cases p with
    | nil => exact absurd rfl hp
    | cons p0 p' =>
      have h1 : p0 = t := (List.cons.injEq .. ▸ hpq).1.symm
      subst h1
      have h2 : rest = p' ++ q := (List.cons.injEq .. ▸ hpq).2
      by_cases hf : fatal (stepCounts counts p0) = true
      · rw [List.cons_append, runEngine_cons, runEngine_cons, hf]
        simp
      · have hf' : fatal (stepCounts counts p0) = false := Bool.eq_false_iff.mpr hf
        cases p' with
        | nil =>
          rw [countsAfter_cons, countsAfter] at hfatal
          simp only [List.foldl_nil] at hfatal
          exact absurd hfatal hf
        | cons p1 p'' =>
          have hre := runEngine_halted rest (stepCounts counts p0) (p1 :: p'') q h2
            (by simp) (by rw [← countsAfter_cons]; exact hfatal) extra
          rw [List.cons_append, runEngine_cons, runEngine_cons, hf', if_neg (by simp),
            if_neg (by simp), hre]

theorem triple_to_fatal (ticks : List (List Bool)) (hwf : ∀ t ∈ ticks, t.length = 5)
    (k i : ℕ) (hk : k + 2 < ticks.length)
    (f0 : failsAt ticks k i = true) (f1 : failsAt ticks (k + 1) i = true)
    (f2 : failsAt ticks (k + 2) i = true) :
    ∃ p q, ticks = p ++ q ∧ p ≠ [] ∧
      fatal (countsAfter (List.replicate 5 0) p) = true := by
  have hk0 : k < ticks.length := by omega
  have hk1 : k + 1 < ticks.length := by omega
  have hi5 : i < 5 := by
    have hf := f0
    rw [failsAt, List.getD_eq_getElem _ _ hk0] at hf
    have hlen := hwf _ (List.getElem_mem hk0)
    by_contra hge
    rw [List.getD_eq_default] at hf
    · cases hf
    · omega
  have h5len : ∀ n, (countsAfter (List.replicate 5 0) (ticks.take n)).length = 5 :=
    fun n => countsAfter_length_five _ _ (by simp)
      (fun u hu => hwf u ((List.take_sublist _ _).mem hu))
  have key : ∀ (n : ℕ) (hn : n < ticks.length), failsAt ticks n i = true →
      (countsAfter (List.replicate 5 0) (ticks.take (n + 1))).getD i 0 =
        (countsAfter (List.replicate 5 0) (ticks.take n)).getD i 0 + 1 := by
    intro n hn hf
    rw [countsAfter_take_succ _ _ _ hn, stepCounts_getD]
    · rw [failsAt] at hf
      rw [hf, if_pos rfl]
    · rw [h5len n]; exact hi5
    · rw [List.getD_eq_getElem _ _ hn, hwf _ (List.getElem_mem hn)]; exact hi5
  have e1 := key k hk0 f0
  have e2 := key (k + 1) hk1 f1
  have e3 := key (k + 2) hk f2
  have h12 : k + 1 + 1 = k + 2 := by omega
  have h23 : k + 2 + 1 = k + 3 := by omega
  rw [h12] at e2
  rw [h23] at e3
  refine ⟨ticks.take (k + 3), ticks.drop (k + 3), (List.take_append_drop ..).symm, ?_, ?_⟩
  · intro h
    have hl : (ticks.take (k + 3)).length = k + 3 := by
      rw [List.length_take]; omega
    rw [h] at hl
    cases hl
  · exact fatal_of_getD _ i (by rw [h5len (k + 3)]; exact hi5) (by omega)

theorem trailing_of_countsAfter (i : ℕ) (hi5 : i < 5) :
    ∀ (p : List (List Bool)) (counts : List ℕ) (m : ℕ),
      (∀ t ∈ p, t.length = 5) → counts.length = 5 →
      m ≤ (countsAfter counts p).getD i 0 →
      (m ≤ p.length ∧
        ∀ j, p.length - m ≤ j → j < p.length → (p.getD j []).getD i false = true) ∨
      (p.length < m ∧ m ≤ counts.getD i 0 + p.length ∧
        ∀ j, j < p.length → (p.getD j []).getD i false = true) := by
  intro p
  induction p using List.reverseRecOn with
  | nil =>
    intro counts m _ _ hm
    rcases Nat.eq_zero_or_pos m with rfl | hpos
    · exact Or.inl ⟨Nat.zero_le _, fun j h1 h2 => absurd h2 (by simp)⟩
    · refine Or.inr ⟨by simpa using hpos, ?_, fun j hj => absurd hj (by simp)⟩
      simpa [countsAfter] using hm
  | append_singleton p' t ih =>
    intro counts m hwf hc hm
    have hwf' : ∀ u ∈ p', u.length = 5 := fun u hu => hwf u (List.mem_append_left _ hu)
    have ht5 : t.length = 5 := hwf t (List.mem_append_right _ (List.mem_singleton.mpr rfl))
    have hplen : (countsAfter counts p').length = 5 := countsAfter_length_five _ _ hc hwf'
    have hlen_app : (p' ++ [t]).length = p'.length + 1 := by simp
    rw [countsAfter_append] at hm
    have hstep : (countsAfter (countsAfter counts p') [t]).getD i 0 =
        if t.getD i false then (countsAfter counts p').getD i 0 + 1 else 0 := by
      rw [countsAfter, List.foldl_cons, List.foldl_nil]
      exact stepCounts_getD _ _ i (by omega) (by omega)
    rw [hstep] at hm
    by_cases hft : t.getD i false = true
    · rw [hft, if_pos rfl] at hm
      rcases Nat.eq_zero_or_pos m with rfl | hpos
      · exact Or.inl ⟨Nat.zero_le _, fun j h1 h2 => absurd h2 (by omega)⟩
      obtain ⟨m', rfl⟩ : ∃ m', m = m' + 1 := ⟨m - 1, by omega⟩
      have hm' : m' ≤ (countsAfter counts p').getD i 0 := by omega
      have hgetlast : ((p' ++ [t]).getD p'.length []).getD i false = true := by
        have hlast : (p' ++ [t]).getD p'.length [] = t := by
          rw [List.getD_append_right p' [t] [] p'.length (le_refl _), Nat.sub_self]
          rfl
        rw [hlast]
        exact hft
      have hget : ∀ j, j < p'.length → (p' ++ [t]).getD j [] = p'.getD j [] :=
        fun j hj => List.getD_append p' [t] [] j hj
      rcases ih counts m' hwf' hc hm' with ⟨hlen, htrail⟩ | ⟨hlen, hcnt, hall⟩
      · refine Or.inl ⟨by omega, fun j h1 h2 => ?_⟩
        rcases Nat.lt_or_ge j p'.length with hj | hj
        · rw [hget j hj]
          exact htrail j (by omega) hj
        · have hj' : j = p'.length := by omega
          rw [hj']
          exact hgetlast
      · refine Or.inr ⟨by omega, by omega, fun j hj => ?_⟩
        rcases Nat.lt_or_ge j p'.length with hjl | hjl
        · rw [hget j hjl]
          exact hall j hjl
        · have hj' : j = p'.length := by omega
          rw [hj']
          exact hgetlast
    · rw [Bool.eq_false_iff.mpr hft] at hm
      simp only [Bool.false_eq_true, if_false] at hm
      have hm0 : m = 0 := by omega
      subst hm0
      exact Or.inl ⟨Nat.zero_le _, fun j h1 h2 => absurd h2 (by omega)⟩

theorem fatal_to_triple (ticks : List (List Bool)) (hwf : ∀ t ∈ ticks, t.length = 5)
    (p q : List (List Bool)) (hpq : ticks = p ++ q) (hp : p ≠ [])
    (hfatal : fatal (countsAfter (List.replicate 5 0) p) = true) :
    hasTripleFailure ticks = true := by
  have hwfp : ∀ t ∈ p, t.length = 5 := fun t ht => hwf t (hpq ▸ List.mem_append_left _ ht)
  obtain ⟨i, hi, h3⟩ := getD_of_fatal _ hfatal
  rw [countsAfter_length_five p _ (by simp) hwfp] at hi
  rcases trailing_of_countsAfter i hi p (List.replicate 5 0) 3 hwfp (by simp) h3 with
    ⟨hlen, htrail⟩ | ⟨hlen, hcnt, -⟩
  · set k := p.length - 3 with hk
    have hkp : k + 2 < p.length := by omega
    have hplen : p.length ≤ ticks.length := by rw [hpq]; simp
    have hfail : ∀ j, p.length - 3 ≤ j → j < p.length → failsAt ticks j i = true := by
      intro j h1 h2
      rw [failsAt, hpq, List.getD_append p q [] j h2]
      exact htrail j h1 h2
    refine List.any_eq_true.mpr ⟨k, List.mem_range.mpr (by omega), ?_⟩
    refine (Bool.and_eq_true ..).mpr ⟨decide_eq_true (by omega), ?_⟩
    refine List.any_eq_true.mpr ⟨i, List.mem_range.mpr hi, ?_⟩
    refine (Bool.and_eq_true ..).mpr ⟨(Bool.and_eq_true ..).mpr ⟨?_, ?_⟩, ?_⟩
    · exact hfail k (by omega) (by omega)
    · exact hfail (k + 1) (by omega) (by omega)
    · exact hfail (k + 2) (by omega) (by omega)
  · have hrep : (List.replicate 5 0).getD i 0 = 0 := by
      rw [List.getD_eq_getElem _ _ (by simpa using hi)]
      exact List.getElem_replicate ..
    omega

/-- C9: for runs of the Orchestration Engine over five-stage ticks, if some
stage fails on three consecutive ticks the engine halts fatally — appending
further ticks changes nothing, no further tick is processed — while a run in
which no stage ever fails three consecutive times processes every tick
(each failing stage merely contributing empty output for its tick). -/
theorem engine_three_strikes (tA tB : List (List Bool))
    (hA : ∀ t ∈ tA, t.length = 5) (hB : ∀ t ∈ tB, t.length = 5)
    (h3 : hasTripleFailure tA = true) (hno : hasTripleFailure tB = false) :
    (∀ extra, runEngine (List.replicate 5 0) (tA ++ extra) =
      runEngine (List.replicate 5 0) tA) ∧
    runEngine (List.replicate 5 0) tB = tB.length := by
  constructor
  · intro extra
    simp only [hasTripleFailure, List.any_eq_true, List.mem_range, Bool.and_eq_true,
      decide_eq_true_eq] at h3
    obtain ⟨k, -, hk2, i, -, ⟨hf0, hf1⟩, hf2⟩ := h3
    obtain ⟨p, q, hpq, hp, hfatal⟩ := triple_to_fatal tA hA k i hk2 hf0 hf1 hf2
    exact runEngine_halted tA (List.replicate 5 0) p q hpq hp hfatal extra
  · refine runEngine_complete tB (List.replicate 5 0) ?_
    intro p q hpq hp
    rcases Bool.eq_false_or_eq_true (fatal (countsAfter (List.replicate 5 0) p)) with h | h
    · exact absurd (fatal_to_triple tB hB p q hpq hp h) (by simp [hno])
    · exact h

/-- C9, witnessed at concrete inputs: a three-tick run in which stage 0 fails
every tick halts and ignores an appended tick; a one-tick run with no
failures processes its single tick. -/
theorem engine_three_strikes_witness :
    (∀ t ∈ List.replicate 3 (List.replicate 5 true), t.length = 5) ∧
    (∀ t ∈ [List.replicate 5 false], t.length = 5) ∧
    hasTripleFailure (List.replicate 3 (List.replicate 5 true)) = true ∧
    hasTripleFailure [List.replicate 5 false] = false ∧
    ((∀ extra, runEngine (List.replicate 5 0)
        (List.replicate 3 (List.replicate 5 true) ++ extra) =
      runEngine (List.replicate 5 0) (List.replicate 3 (List.replicate 5 true))) ∧
    runEngine (List.replicate 5 0) [List.replicate 5 false] =
      [List.replicate 5 false].length) :=
  ⟨by decide, by decide, by decide, by decide,
    engine_three_strikes (List.replicate 3 (List.replicate 5 true))
      [List.replicate 5 false] (by decide) (by decide) (by decide) (by decide)⟩
